import Mathlib

/-!
Verification of the score-adjustment module.

This file gives a shallow embedding of the functions in
src/score_adjustments.py and proves properties about them.

Modelling choices:
  - A pandas DataFrame of scores (rows = projects, columns = judges) is a
    `ScoreTable`: ordered row labels, ordered column labels, and a score
    function on labels.  Labels are natural numbers.
  - Numeric values are real numbers; arithmetic is exact real arithmetic.
    Where IEEE special values matter, the same code is modelled a second
    time over `FloatVal`, an extension of the reals with nan and signed
    infinities: `normalizeF` for the min-max rescaling helper, and
    `kappaTermF` / `kappaRawF` / `kappa_adjustedF` for the kappa
    pipeline.  One behaviour of line 62 is decisive for relating the two
    models: `np.sum(frame, axis=1)` on a pandas DataFrame is not a raw
    numpy reduction; numpy calls the sum method of a non-ndarray
    argument, so the row sum is `DataFrame.sum(axis=1)` with its default
    skipna=True, and nan terms are dropped (an all-nan row sums to 0.0).
    The theorem `kappaRawF_eq_fin` proves that under these semantics the
    IEEE per-project value coincides with the exact-real model on every
    table with at least one project and every kappa other than -1: the
    only nan terms (single-row standard deviation; zero-spread column
    with negative kappa) have zero deviation, are skipped by the row
    sum, and are exactly the terms the exact-real model sets to zero.
  - A returned pandas Series is an association list `List (Nat x Real)` in
    output order; sort_values descending is an insertion sort on the value
    component.  Python KeyError is an `Except` error carrying the key.
-/

set_option maxHeartbeats 1000000
set_option linter.unusedVariables false

/-- A rectangular score table: row labels (projects), column labels
(judges), and the score of project p given by judge j. -/
structure ScoreTable where
  projects : List ℕ
  judges : List ℕ
  score : ℕ → ℕ → ℝ

/-- Mean of judge j's column over all projects; embeds
`scores.mean(axis=0)` (src/score_adjustments.py line 59). -/
noncomputable def colMean (t : ScoreTable) (j : ℕ) : ℝ :=
  ((t.projects.map fun p => t.score p j).sum) / (t.projects.length : ℝ)

/-- Variance of judge j's column with the pandas default ddof = 1; embeds
`scores.var(axis=0)` (line 88) in exact real arithmetic.  For a single
row Lean's zero-division convention yields 0 where the float value is
nan; `colVarF` below is the IEEE-faithful version, and the bridge
theorem `kappaRawF_eq_fin` shows the difference never reaches a
returned value, because the skipna row sum of line 62 drops the nan
terms it induces. -/
noncomputable def colVar (t : ScoreTable) (j : ℕ) : ℝ :=
  ((t.projects.map fun p => (t.score p j - colMean t j) ^ 2).sum) /
    ((t.projects.length : ℝ) - 1)

/-- Sample standard deviation of judge j's column (pandas default
ddof = 1); embeds `scores.std(axis=0)` (line 60) in exact real
arithmetic; `colStdF` below is the IEEE-faithful version (nan for a
single row). -/
noncomputable def colStd (t : ScoreTable) (j : ℕ) : ℝ :=
  Real.sqrt (colVar t j)

/-- One summand of the kappa-adjusted score: the (p, j) entry of
`np.sign(scores - avg) * (np.abs(scores - avg) * std ** kappa) ** (1 / (1 + kappa))`
(line 63).  Real exponentiation is `Real.rpow`.  Its conventions (zero
to a negative power is zero) differ from IEEE only at terms of zero
deviation, where the sign factor makes the real term zero;
`kappaTermF` below is the IEEE-faithful version and `kappaTermF_cases`
proves the two agree except for nan terms of real value zero, which
the skipna row sum of line 62 drops. -/
noncomputable def kappaTerm (t : ScoreTable) (kappa : ℝ) (p j : ℕ) : ℝ :=
  Real.sign (t.score p j - colMean t j) *
    (|t.score p j - colMean t j| * colStd t j ^ kappa) ^ (1 / (1 + kappa))

/-- Raw (pre-normalization) kappa-adjusted score of project p: the row sum
`np.sum(..., axis=1)` (lines 62-65). -/
noncomputable def kappaRaw (t : ScoreTable) (kappa : ℝ) (p : ℕ) : ℝ :=
  (t.judges.map fun j => kappaTerm t kappa p j).sum

/-- Minimum of a list of reals, as `arr.min()` (line 33).  The empty case
is irrelevant to every use below. -/
noncomputable def listMin : List ℝ → ℝ
  | [] => 0
  | x :: xs => xs.foldl min x

/-- Maximum of a list of reals, as `arr.max()` (line 34). -/
noncomputable def listMax : List ℝ → ℝ
  | [] => 0
  | x :: xs => xs.foldl max x

/-- Min-max rescaling `(arr - a) / (b - a)` (lines 28-36), in exact real
arithmetic (Lean convention: division by zero yields zero; the IEEE
behaviour at a zero range is modelled by `normalizeF` below). -/
noncomputable def normalizeVals (arr : List ℝ) : List ℝ :=
  arr.map fun x => (x - listMin arr) / (listMax arr - listMin arr)

/-- Descending comparison on (label, value) pairs: a comes before b when
the value of a is at least the value of b. -/
def descBy (a b : ℕ × ℝ) : Prop := b.2 ≤ a.2

noncomputable instance : DecidableRel descBy :=
  fun a b => inferInstanceAs (Decidable (b.2 ≤ a.2))

instance : IsTotal (ℕ × ℝ) descBy := ⟨fun a b => le_total b.2 a.2⟩

instance : IsTrans (ℕ × ℝ) descBy := ⟨fun _ _ _ h₁ h₂ => le_trans h₂ h₁⟩

/-- Sorting a labelled series by value, descending; embeds
`.sort_values(ascending=False)` (lines 68 and 97).  The pandas sort is
not stable, so any reordering of ties is a faithful model. -/
noncomputable def sort_values_desc (l : List (ℕ × ℝ)) : List (ℕ × ℝ) :=
  List.insertionSort descBy l

/-- The kappa-adjusted score pipeline (lines 39-68): per-project raw sums,
optional min-max normalization, then a descending sort by value. -/
noncomputable def kappa_adjusted (t : ScoreTable) (kappa : ℝ)
    (normalize : Bool) : List (ℕ × ℝ) :=
  let adjusted := t.projects.map fun p => kappaRaw t kappa p
  let normalized := if normalize then normalizeVals adjusted else adjusted
  sort_values_desc (t.projects.zip normalized)

/-- Weight of judge j: the judge's column variance divided by the total of
all column variances; embeds `weights = std_scores / std_scores.sum()`
(lines 88-89). -/
noncomputable def weight (t : ScoreTable) (j : ℕ) : ℝ :=
  colVar t j / (t.judges.map fun k => colVar t k).sum

/-- Raw (pre-normalization) proportional-variance score of project p:
`np.sum(weights * scores, axis=1)` (lines 91-94). -/
noncomputable def propRaw (t : ScoreTable) (p : ℕ) : ℝ :=
  (t.judges.map fun j => weight t j * t.score p j).sum

/-- The proportional-variance pipeline (lines 70-97). -/
noncomputable def proportional_variance (t : ScoreTable)
    (normalize : Bool) : List (ℕ × ℝ) :=
  let adjusted := t.projects.map fun p => propRaw t p
  let normalized := if normalize then normalizeVals adjusted else adjusted
  sort_values_desc (t.projects.zip normalized)

/-- Relabelling of the attendance series through the mapping, embedding
`pd.Series(attendance.values, index=[mapping[x] for x in attendance.index])`
(line 121).  An attendance index absent from the mapping is a Python
KeyError carrying that index, raised at the first offender in order. -/
def relabel (m : List (ℕ × ℕ)) : List (ℕ × ℝ) → Except ℕ (List (ℕ × ℝ))
  | [] => Except.ok []
  | (k, v) :: rest =>
    match m.lookup k with
    | none => Except.error k
    | some k2 =>
      match relabel m rest with
      | Except.error e => Except.error e
      | Except.ok rest2 => Except.ok ((k2, v) :: rest2)

/-- The attendance series actually used for the blend: unchanged when no
mapping is supplied, relabelled through the mapping otherwise
(lines 120-121). -/
def translated (mapping : Option (List (ℕ × ℕ)))
    (attendance : List (ℕ × ℝ)) : Except ℕ (List (ℕ × ℝ)) :=
  match mapping with
  | none => Except.ok attendance
  | some m => relabel m attendance

/-- The blend `scores * (1 - r) + attendance.loc[scores.index] * r`
(line 123).  A score index absent from the attendance series is a Python
KeyError carrying that index, as raised by `.loc`. -/
def blendEach (att : List (ℕ × ℝ)) (r : ℝ) :
    List (ℕ × ℝ) → Except ℕ (List (ℕ × ℝ))
  | [] => Except.ok []
  | (p, s) :: rest =>
    match att.lookup p with
    | none => Except.error p
    | some a =>
      match blendEach att r rest with
      | Except.error e => Except.error e
      | Except.ok rest2 => Except.ok ((p, s * (1 - r) + a * r) :: rest2)

/-- The attendance blend (lines 99-123): optional relabelling of the
attendance series, then the weighted average against the scores. -/
def showcase_prescreening_score (scores att : List (ℕ × ℝ)) (r : ℝ)
    (mapping : Option (List (ℕ × ℕ))) : Except ℕ (List (ℕ × ℝ)) :=
  match translated mapping att with
  | Except.error e => Except.error e
  | Except.ok att2 => blendEach att2 r scores

/-- IEEE-style value: a finite real, nan, or a signed infinity. -/
inductive FloatVal where
  | fin (x : ℝ)
  | nan
  | pinf
  | ninf

/-- IEEE division of two finite reals: zero over zero is nan, a nonzero
numerator over zero is a signed infinity, and otherwise the real
quotient. -/
noncomputable def fdiv (x y : ℝ) : FloatVal :=
  if y = 0 then
    if x = 0 then FloatVal.nan
    else if 0 < x then FloatVal.pinf else FloatVal.ninf
  else FloatVal.fin (x / y)

/-- The min-max rescaling helper of lines 28-36 once more, this time with
IEEE division, so that the value produced at a degenerate (zero-width)
range is visible. -/
noncomputable def normalizeF (arr : List ℝ) : List FloatVal :=
  arr.map fun x => fdiv (x - listMin arr) (listMax arr - listMin arr)

/-- Recognizer for the nan value. -/
def isNanV : FloatVal → Bool
  | FloatVal.nan => true
  | _ => false

/-- IEEE addition: nan propagates, opposite infinities give nan, an
infinity absorbs finite values, and finite values add exactly. -/
noncomputable def fadd : FloatVal → FloatVal → FloatVal
  | FloatVal.nan, _ => FloatVal.nan
  | _, FloatVal.nan => FloatVal.nan
  | FloatVal.fin x, FloatVal.fin y => FloatVal.fin (x + y)
  | FloatVal.pinf, FloatVal.ninf => FloatVal.nan
  | FloatVal.ninf, FloatVal.pinf => FloatVal.nan
  | FloatVal.pinf, _ => FloatVal.pinf
  | _, FloatVal.pinf => FloatVal.pinf
  | FloatVal.ninf, _ => FloatVal.ninf
  | _, FloatVal.ninf => FloatVal.ninf

/-- IEEE subtraction, needed only to form score minus column mean. -/
noncomputable def fsub : FloatVal → FloatVal → FloatVal
  | FloatVal.nan, _ => FloatVal.nan
  | _, FloatVal.nan => FloatVal.nan
  | FloatVal.fin x, FloatVal.fin y => FloatVal.fin (x - y)
  | FloatVal.pinf, FloatVal.pinf => FloatVal.nan
  | FloatVal.ninf, FloatVal.ninf => FloatVal.nan
  | FloatVal.pinf, _ => FloatVal.pinf
  | FloatVal.ninf, _ => FloatVal.ninf
  | FloatVal.fin _, FloatVal.pinf => FloatVal.ninf
  | FloatVal.fin _, FloatVal.ninf => FloatVal.pinf

/-- IEEE multiplication: nan propagates, zero times an infinity is nan,
a nonzero finite value times an infinity is a signed infinity, and
finite values multiply exactly. -/
noncomputable def fmul : FloatVal → FloatVal → FloatVal
  | FloatVal.nan, _ => FloatVal.nan
  | _, FloatVal.nan => FloatVal.nan
  | FloatVal.fin x, FloatVal.fin y => FloatVal.fin (x * y)
  | FloatVal.fin x, FloatVal.pinf =>
      if x = 0 then FloatVal.nan
      else if 0 < x then FloatVal.pinf else FloatVal.ninf
  | FloatVal.fin x, FloatVal.ninf =>
      if x = 0 then FloatVal.nan
      else if 0 < x then FloatVal.ninf else FloatVal.pinf
  | FloatVal.pinf, FloatVal.fin x =>
      if x = 0 then FloatVal.nan
      else if 0 < x then FloatVal.pinf else FloatVal.ninf
  | FloatVal.ninf, FloatVal.fin x =>
      if x = 0 then FloatVal.nan
      else if 0 < x then FloatVal.ninf else FloatVal.pinf
  | FloatVal.pinf, FloatVal.pinf => FloatVal.pinf
  | FloatVal.pinf, FloatVal.ninf => FloatVal.ninf
  | FloatVal.ninf, FloatVal.pinf => FloatVal.ninf
  | FloatVal.ninf, FloatVal.ninf => FloatVal.pinf

/-- Numpy np.sign on IEEE values: nan maps to nan, infinities to their
sign, finite values to the real sign function. -/
noncomputable def fsignF : FloatVal → FloatVal
  | FloatVal.nan => FloatVal.nan
  | FloatVal.fin x => FloatVal.fin (Real.sign x)
  | FloatVal.pinf => FloatVal.fin 1
  | FloatVal.ninf => FloatVal.fin (-1)

/-- Numpy np.abs on IEEE values. -/
noncomputable def fabsF : FloatVal → FloatVal
  | FloatVal.nan => FloatVal.nan
  | FloatVal.fin x => FloatVal.fin |x|
  | FloatVal.pinf => FloatVal.pinf
  | FloatVal.ninf => FloatVal.pinf

/-- IEEE square root: nan below zero and on nan, exact otherwise. -/
noncomputable def fsqrtF : FloatVal → FloatVal
  | FloatVal.nan => FloatVal.nan
  | FloatVal.fin x => if x < 0 then FloatVal.nan else FloatVal.fin (Real.sqrt x)
  | FloatVal.pinf => FloatVal.pinf
  | FloatVal.ninf => FloatVal.nan

/-- The float power x ** y of numpy for a finite real exponent,
following IEEE pow: anything to the zero is one (including nan, as
numpy gives nan ** 0 = 1.0); nan to a nonzero power is nan; plus
infinity to a positive power is plus infinity and to a negative power
is zero; minus infinity keeps the magnitude rule with a negative sign
exactly at odd integer exponents; finite zero to a positive power is
zero and to a negative power is plus infinity (numpy 0.0 ** -0.5 =
inf); a positive base gives the exact real power; a negative base
gives the real power at integer exponents and nan otherwise. -/
noncomputable def fpow (a : FloatVal) (y : ℝ) : FloatVal :=
  if y = 0 then FloatVal.fin 1
  else
    match a with
    | FloatVal.nan => FloatVal.nan
    | FloatVal.pinf => if 0 < y then FloatVal.pinf else FloatVal.fin 0
    | FloatVal.ninf =>
        if 0 < y then
          if Int.fract y = 0 ∧ ¬(⌊y⌋ % 2 = 0) then FloatVal.ninf
          else FloatVal.pinf
        else FloatVal.fin 0
    | FloatVal.fin x =>
        if x = 0 then (if 0 < y then FloatVal.fin 0 else FloatVal.pinf)
        else if 0 < x then FloatVal.fin (x ^ y)
        else if Int.fract y = 0 then FloatVal.fin (x ^ ⌊y⌋)
        else FloatVal.nan

/-- The row sum of line 62: np.sum(frame, axis=1) on a pandas DataFrame
is not a raw numpy reduction.  Numpy's np.sum calls the sum method of a
non-ndarray argument, so this is DataFrame.sum(axis=1) with its default
skipna=True: nan entries are dropped from the sum, and a row of only
nan sums to 0.0. -/
noncomputable def fsumSkip (l : List FloatVal) : FloatVal :=
  (l.filter fun a => !(isNanV a)).foldr fadd (FloatVal.fin 0)

/-- Column mean of judge j under IEEE arithmetic: the finite sum divided
by the row count, nan on an empty table as pandas gives. -/
noncomputable def colMeanF (t : ScoreTable) (j : ℕ) : FloatVal :=
  fdiv ((t.projects.map fun p => t.score p j).sum) (t.projects.length : ℝ)

/-- Column variance of judge j under IEEE arithmetic with the pandas
default ddof = 1: nan on an empty column, and the squared-deviation sum
divided by (count - 1), which is nan (zero over zero) for a single
row. -/
noncomputable def colVarF (t : ScoreTable) (j : ℕ) : FloatVal :=
  if t.projects.length = 0 then FloatVal.nan
  else fdiv ((t.projects.map fun p => (t.score p j - colMean t j) ^ 2).sum)
    ((t.projects.length : ℝ) - 1)

/-- Column sample standard deviation under IEEE arithmetic: the square
root of the variance, hence nan for a single-row column. -/
noncomputable def colStdF (t : ScoreTable) (j : ℕ) : FloatVal :=
  fsqrtF (colVarF t j)

/-- The (p, j) entry of line 63 under IEEE arithmetic:
sign(score - mean) times (abs(score - mean) times std ** kappa) to the
power 1 / (1 + kappa), composed from the IEEE operations above. -/
noncomputable def kappaTermF (t : ScoreTable) (kappa : ℝ) (p j : ℕ) :
    FloatVal :=
  fmul (fsignF (fsub (FloatVal.fin (t.score p j)) (colMeanF t j)))
    (fpow (fmul (fabsF (fsub (FloatVal.fin (t.score p j)) (colMeanF t j)))
        (fpow (colStdF t j) kappa))
      (1 / (1 + kappa)))

/-- The per-project value of lines 62-65 under IEEE arithmetic: the
skipna row sum of the per-judge terms. -/
noncomputable def kappaRawF (t : ScoreTable) (kappa : ℝ) (p : ℕ) :
    FloatVal :=
  fsumSkip (t.judges.map fun j => kappaTermF t kappa p j)

/-- Value order used by sort_values on IEEE values: the usual order on
finite values with the infinities at the ends.  Nan entries are never
compared by pandas (they are set aside and appended after the sort), so
their position in this relation is irrelevant; placing nan at the
bottom keeps the relation total. -/
noncomputable def fleVal : FloatVal → FloatVal → Prop
  | FloatVal.nan, _ => True
  | _, FloatVal.nan => False
  | FloatVal.ninf, _ => True
  | _, FloatVal.ninf => False
  | FloatVal.fin x, FloatVal.fin y => x ≤ y
  | FloatVal.fin _, FloatVal.pinf => True
  | FloatVal.pinf, FloatVal.fin _ => False
  | FloatVal.pinf, FloatVal.pinf => True

noncomputable instance : DecidableRel fleVal := fun a b =>
  match a, b with
  | FloatVal.nan, FloatVal.nan => inferInstanceAs (Decidable True)
  | FloatVal.nan, FloatVal.fin _ => inferInstanceAs (Decidable True)
  | FloatVal.nan, FloatVal.pinf => inferInstanceAs (Decidable True)
  | FloatVal.nan, FloatVal.ninf => inferInstanceAs (Decidable True)
  | FloatVal.fin _, FloatVal.nan => inferInstanceAs (Decidable False)
  | FloatVal.pinf, FloatVal.nan => inferInstanceAs (Decidable False)
  | FloatVal.ninf, FloatVal.nan => inferInstanceAs (Decidable False)
  | FloatVal.ninf, FloatVal.fin _ => inferInstanceAs (Decidable True)
  | FloatVal.ninf, FloatVal.pinf => inferInstanceAs (Decidable True)
  | FloatVal.ninf, FloatVal.ninf => inferInstanceAs (Decidable True)
  | FloatVal.fin _, FloatVal.ninf => inferInstanceAs (Decidable False)
  | FloatVal.pinf, FloatVal.ninf => inferInstanceAs (Decidable False)
  | FloatVal.fin x, FloatVal.fin y => inferInstanceAs (Decidable (x ≤ y))
  | FloatVal.fin _, FloatVal.pinf => inferInstanceAs (Decidable True)
  | FloatVal.pinf, FloatVal.fin _ => inferInstanceAs (Decidable False)
  | FloatVal.pinf, FloatVal.pinf => inferInstanceAs (Decidable True)

/-- Descending comparison on labelled IEEE values. -/
noncomputable def descByF (a b : ℕ × FloatVal) : Prop := fleVal b.2 a.2

noncomputable instance : DecidableRel descByF :=
  fun a b => inferInstanceAs (Decidable (fleVal b.2 a.2))

/-- Sorting a labelled IEEE series by value, descending, as
sort_values(ascending=False) does: non-nan entries sorted descending,
then nan entries appended in their original order (na_position last). -/
noncomputable def sort_values_descF (l : List (ℕ × FloatVal)) :
    List (ℕ × FloatVal) :=
  List.insertionSort descByF (l.filter fun q => !(isNanV q.2)) ++
    l.filter (fun q => isNanV q.2)

/-- The kappa-adjusted pipeline of lines 59-68 with normalize=False
under IEEE arithmetic. -/
noncomputable def kappa_adjustedF (t : ScoreTable) (kappa : ℝ) :
    List (ℕ × FloatVal) :=
  sort_values_descF (t.projects.zip
    (t.projects.map fun p => kappaRawF t kappa p))

/-- The fold computing a list minimum never exceeds its seed. -/
theorem foldl_min_le_init : ∀ (xs : List ℝ) (a : ℝ), xs.foldl min a ≤ a
  | [], _ => le_refl _
  | x :: xs, a => le_trans (foldl_min_le_init xs (min a x)) (min_le_left a x)

/-- The fold computing a list minimum never exceeds a list element. -/
theorem foldl_min_le_mem : ∀ (xs : List ℝ) (a x : ℝ), x ∈ xs → xs.foldl min a ≤ x := by
  intro xs
  induction xs with
  | nil => intro a x hx; exact absurd hx (List.not_mem_nil x)
  | cons y ys ih =>
    intro a x hx
    rcases List.mem_cons.mp hx with rfl | hx2
    · exact le_trans (foldl_min_le_init ys (min a x)) (min_le_right a x)
    · exact ih (min a y) x hx2

/-- The fold computing a list minimum lands on the seed or on an element. -/
theorem foldl_min_cases : ∀ (xs : List ℝ) (a : ℝ),
    xs.foldl min a = a ∨ xs.foldl min a ∈ xs := by
  intro xs
  induction xs with
  | nil => intro a; exact Or.inl rfl
  | cons y ys ih =>
    intro a
    rcases ih (min a y) with h | h
    · rcases le_total a y with hle | hle
      · left; rw [List.foldl_cons, h, min_eq_left hle]
      · right; rw [List.foldl_cons, h, min_eq_right hle]; exact List.mem_cons_self y ys
    · right; exact List.mem_cons_of_mem y h

/-- The fold computing a list maximum is at least its seed. -/
theorem le_foldl_max_init : ∀ (xs : List ℝ) (a : ℝ), a ≤ xs.foldl max a
  | [], _ => le_refl _
  | x :: xs, a => le_trans (le_max_left a x) (le_foldl_max_init xs (max a x))

/-- The fold computing a list maximum is at least every list element. -/
theorem le_foldl_max_mem : ∀ (xs : List ℝ) (a x : ℝ), x ∈ xs → x ≤ xs.foldl max a := by
  intro xs
  induction xs with
  | nil => intro a x hx; exact absurd hx (List.not_mem_nil x)
  | cons y ys ih =>
    intro a x hx
    rcases List.mem_cons.mp hx with rfl | hx2
    · exact le_trans (le_max_right a x) (le_foldl_max_init ys (max a x))
    · exact ih (max a y) x hx2

/-- The fold computing a list maximum lands on the seed or on an element. -/
theorem foldl_max_cases : ∀ (xs : List ℝ) (a : ℝ),
    xs.foldl max a = a ∨ xs.foldl max a ∈ xs := by
  intro xs
  induction xs with
  | nil => intro a; exact Or.inl rfl
  | cons y ys ih =>
    intro a
    rcases ih (max a y) with h | h
    · rcases le_total y a with hle | hle
      · left; rw [List.foldl_cons, h, max_eq_left hle]
      · right; rw [List.foldl_cons, h, max_eq_right hle]; exact List.mem_cons_self y ys
    · right; exact List.mem_cons_of_mem y h

/-- The list minimum is a lower bound for the list. -/
theorem listMin_le {v : List ℝ} {x : ℝ} (hx : x ∈ v) : listMin v ≤ x := by
  cases v with
  | nil => exact absurd hx (List.not_mem_nil x)
  | cons y ys =>
    rcases List.mem_cons.mp hx with rfl | hx2
    · exact foldl_min_le_init ys x
    · exact foldl_min_le_mem ys y x hx2

/-- The list maximum is an upper bound for the list. -/
theorem le_listMax {v : List ℝ} {x : ℝ} (hx : x ∈ v) : x ≤ listMax v := by
  cases v with
  | nil => exact absurd hx (List.not_mem_nil x)
  | cons y ys =>
    rcases List.mem_cons.mp hx with rfl | hx2
    · exact le_foldl_max_init ys x
    · exact le_foldl_max_mem ys y x hx2

/-- The minimum of a nonempty list is one of its elements. -/
theorem listMin_mem {v : List ℝ} (hv : v ≠ []) : listMin v ∈ v := by
  cases v with
  | nil => exact absurd rfl hv
  | cons y ys =>
    rcases foldl_min_cases ys y with h | h
    · rw [listMin, h]; exact List.mem_cons_self y ys
    · rw [listMin]; exact List.mem_cons_of_mem y h

/-- The maximum of a nonempty list is one of its elements. -/
theorem listMax_mem {v : List ℝ} (hv : v ≠ []) : listMax v ∈ v := by
  cases v with
  | nil => exact absurd rfl hv
  | cons y ys =>
    rcases foldl_max_cases ys y with h | h
    · rw [listMax, h]; exact List.mem_cons_self y ys
    · rw [listMax]; exact List.mem_cons_of_mem y h

/-- A member that bounds the list from below is the list minimum. -/
theorem listMin_eq_of {v : List ℝ} {c : ℝ} (hc : c ∈ v)
    (hb : ∀ x ∈ v, c ≤ x) : listMin v = c :=
  le_antisymm (listMin_le hc)
    (hb _ (listMin_mem (List.ne_nil_of_mem hc)))

/-- A member that bounds the list from above is the list maximum. -/
theorem listMax_eq_of {v : List ℝ} {c : ℝ} (hc : c ∈ v)
    (hb : ∀ x ∈ v, x ≤ c) : listMax v = c :=
  le_antisymm (hb _ (listMax_mem (List.ne_nil_of_mem hc))) (le_listMax hc)

/-- Sign times absolute value recovers the number. -/
theorem sign_mul_abs_eq (x : ℝ) : Real.sign x * |x| = x := by
  rcases lt_trichotomy x 0 with h | h | h
  · rw [Real.sign_of_neg h, abs_of_neg h]
    ring
  · subst h; simp
  · rw [Real.sign_of_pos h, abs_of_pos h, one_mul]

/-- Column variances are nonnegative. -/
theorem colVar_nonneg (t : ScoreTable) (j : ℕ) : 0 ≤ colVar t j := by
  unfold colVar
  cases hp : t.projects with
  | nil => simp [hp]
  | cons q qs =>
    apply div_nonneg
    · apply List.sum_nonneg
      intro x hx
      rcases List.mem_map.mp hx with ⟨p, _, rfl⟩
      exact sq_nonneg _
    · have : (1 : ℝ) ≤ ((q :: qs).length : ℝ) := by
        have := List.length_pos.mpr (List.cons_ne_nil q qs)
        exact_mod_cast this
      linarith

/-- Looking up a key at the head of an association list. -/
theorem lookup_cons_same (x2 : ℝ) (l : List (ℕ × ℝ)) (k : ℕ) :
    List.lookup k ((k, x2) :: l) = some x2 := by
  rw [List.lookup_cons, beq_self_eq_true]

/-- Looking up a key skips a head entry with a different key. -/
theorem lookup_cons_diff {x1 k : ℕ} (x2 : ℝ) (l : List (ℕ × ℝ))
    (h : k ≠ x1) : List.lookup k ((x1, x2) :: l) = List.lookup k l := by
  rw [List.lookup_cons, beq_false_of_ne h]

/-- Looking a label up in the zip of distinct labels with their mapped
values yields the mapped value. -/
theorem lookup_zip_map (f : ℕ → ℝ) :
    ∀ (ps : List ℕ), ps.Nodup → ∀ p ∈ ps,
      (ps.zip (ps.map f)).lookup p = some (f p) := by
  intro ps
  induction ps with
  | nil => intro _ p hp; exact absurd hp (List.not_mem_nil p)
  | cons q qs ih =>
    intro hnd p hp
    rw [List.map_cons, List.zip_cons_cons]
    by_cases h : p = q
    · subst h
      exact lookup_cons_same _ _ _
    · have hp2 : p ∈ qs := by
        rcases List.mem_cons.mp hp with h1 | h1
        · exact absurd h1 h
        · exact h1
      rw [lookup_cons_diff _ _ h]
      exact ih (List.Nodup.of_cons hnd) p hp2

/-- Lookups agree across a permutation when the keys are distinct. -/
theorem lookup_perm {l₁ l₂ : List (ℕ × ℝ)} (h : l₁.Perm l₂) :
    (l₁.map Prod.fst).Nodup → ∀ k : ℕ, l₁.lookup k = l₂.lookup k := by
  induction h with
  | nil => intro _ _; rfl
  | cons x h2 ih =>
    intro hnd k
    obtain ⟨x1, x2⟩ := x
    rw [List.map_cons] at hnd
    have hnd2 := (List.nodup_cons.mp hnd).2
    by_cases hk : k = x1
    · subst hk
      rw [lookup_cons_same, lookup_cons_same]
    · rw [lookup_cons_diff _ _ hk, lookup_cons_diff _ _ hk]
      exact ih hnd2 k
  | swap x y l =>
    intro hnd k
    obtain ⟨x1, x2⟩ := x
    obtain ⟨y1, y2⟩ := y
    rw [List.map_cons, List.map_cons] at hnd
    have hne : y1 ≠ x1 := by
      have h1 := (List.nodup_cons.mp hnd).1
      intro he
      exact h1 (List.mem_cons.mpr (Or.inl he))
    by_cases hky : k = y1
    · subst hky
      rw [lookup_cons_same, lookup_cons_diff _ _ hne, lookup_cons_same]
    · by_cases hkx : k = x1
      · subst hkx
        rw [lookup_cons_diff _ _ hky, lookup_cons_same, lookup_cons_same]
      · rw [lookup_cons_diff _ _ hky, lookup_cons_diff _ _ hkx,
          lookup_cons_diff _ _ hkx, lookup_cons_diff _ _ hky]
  | trans h₁ h₂ ih₁ ih₂ =>
    intro hnd k
    have hnd2 := ((h₁.map Prod.fst).nodup_iff).mp hnd
    rw [ih₁ hnd k, ih₂ hnd2 k]

/-- Looking a label up in the sorted zip of distinct labels with their
mapped values yields the mapped value: the descending sort permutes the
series without touching its entries. -/
theorem lookup_sort_zip_map (t : ScoreTable) (f : ℕ → ℝ)
    (hnd : t.projects.Nodup) (p : ℕ) (hp : p ∈ t.projects) :
    (sort_values_desc (t.projects.zip (t.projects.map f))).lookup p =
      some (f p) := by
  have hkeys : ((t.projects.zip (t.projects.map f)).map Prod.fst) =
      t.projects := List.map_fst_zip _ _ (by simp)
  have hperm : (t.projects.zip (t.projects.map f)).Perm
      (sort_values_desc (t.projects.zip (t.projects.map f))) :=
    (List.perm_insertionSort descBy _).symm
  rw [← lookup_perm hperm (by rw [hkeys]; exact hnd) p]
  exact lookup_zip_map f t.projects hnd p hp

/-- The values of the sorted series are a permutation of the input
values. -/
theorem snds_sort_zip (ps : List ℕ) (vs : List ℝ)
    (h : ps.length = vs.length) :
    ((sort_values_desc (ps.zip vs)).map Prod.snd).Perm vs := by
  have h1 := (List.perm_insertionSort descBy (ps.zip vs)).map Prod.snd
  rwa [List.map_snd_zip ps vs h.ge] at h1

/-- With normalization off, the kappa pipeline is the sorted zip of the
projects with their raw sums. -/
theorem kappa_adjusted_false (t : ScoreTable) (kappa : ℝ) :
    kappa_adjusted t kappa false =
      sort_values_desc (t.projects.zip
        (t.projects.map fun p => kappaRaw t kappa p)) := by
  simp [kappa_adjusted]

/-- With normalization off, the proportional-variance pipeline is the
sorted zip of the projects with their raw weighted averages. -/
theorem proportional_variance_false (t : ScoreTable) :
    proportional_variance t false =
      sort_values_desc (t.projects.zip
        (t.projects.map fun p => propRaw t p)) := by
  simp [proportional_variance]

/-- Concrete one-project, one-judge table used by witnesses. -/
def tOne : ScoreTable := ⟨[0], [0], fun _ _ => 5⟩

/-- Concrete two-project, one-judge table with distinct scores 0 and 2,
used by witnesses. -/
noncomputable def tTwo : ScoreTable :=
  ⟨[0, 1], [0], fun p _ => if p = 0 then 0 else 2⟩

/-- Subtraction of finite IEEE values is exact. -/
theorem fsub_fin (x y : ℝ) :
    fsub (FloatVal.fin x) (FloatVal.fin y) = FloatVal.fin (x - y) := rfl

/-- Multiplication of finite IEEE values is exact. -/
theorem fmul_fin (x y : ℝ) :
    fmul (FloatVal.fin x) (FloatVal.fin y) = FloatVal.fin (x * y) := rfl

/-- Sign of a finite IEEE value is the real sign. -/
theorem fsignF_fin (x : ℝ) :
    fsignF (FloatVal.fin x) = FloatVal.fin (Real.sign x) := rfl

/-- Absolute value of a finite IEEE value is exact. -/
theorem fabsF_fin (x : ℝ) :
    fabsF (FloatVal.fin x) = FloatVal.fin |x| := rfl

/-- The outer exponent of the kappa formula is nonzero away from
kappa = -1. -/
theorem kappa_exp_ne_zero {kappa : ℝ} (hk : kappa ≠ -1) :
    (1 : ℝ) / (1 + kappa) ≠ 0 := by
  intro h
  rcases div_eq_zero_iff.mp h with h1 | h1
  · exact one_ne_zero h1
  · exact hk (by linarith)

/-- The IEEE power of a strictly positive finite base is the exact real
power. -/
theorem fpow_fin_pos {x : ℝ} (hx : 0 < x) (y : ℝ) :
    fpow (FloatVal.fin x) y = FloatVal.fin (x ^ y) := by
  unfold fpow
  by_cases hy : y = 0
  · subst hy
    rw [if_pos rfl, Real.rpow_zero]
  · rw [if_neg hy]
    simp [hx.ne', hx, not_lt_of_gt]

/-- On a nonempty table the IEEE column mean is the exact real mean. -/
theorem colMeanF_eq (t : ScoreTable) (j : ℕ) (h : t.projects ≠ []) :
    colMeanF t j = FloatVal.fin (colMean t j) := by
  unfold colMeanF colMean fdiv
  rw [if_neg]
  exact Nat.cast_ne_zero.mpr (fun h0 => h (List.length_eq_zero.mp h0))

/-- With at least two rows the IEEE column standard deviation is the
exact real sample standard deviation. -/
theorem colStdF_eq (t : ScoreTable) (j : ℕ) (h2 : 2 ≤ t.projects.length) :
    colStdF t j = FloatVal.fin (colStd t j) := by
  have hn0 : t.projects.length ≠ 0 := by omega
  have hden : ((t.projects.length : ℝ)) - 1 ≠ 0 := by
    have : (2 : ℝ) ≤ (t.projects.length : ℝ) := by exact_mod_cast h2
    linarith
  have hvar : colVarF t j = FloatVal.fin (colVar t j) := by
    unfold colVarF colVar fdiv
    rw [if_neg hn0, if_neg hden]
  unfold colStdF colStd
  rw [hvar]
  show (if colVar t j < 0 then FloatVal.nan
    else FloatVal.fin (Real.sqrt (colVar t j))) =
    FloatVal.fin (Real.sqrt (colVar t j))
  rw [if_neg (not_lt_of_ge (colVar_nonneg t j))]

/-- On a one-row table every deviation from the column mean is zero. -/
theorem deviation_zero_of_one (t : ScoreTable) (j : ℕ)
    (h1 : t.projects.length = 1) (p : ℕ) (hp : p ∈ t.projects) :
    t.score p j - colMean t j = 0 := by
  obtain ⟨a, ha⟩ := List.length_eq_one.mp h1
  have hpa : p = a := by
    rw [ha] at hp
    simpa using hp
  have hm : colMean t j = t.score a j := by
    unfold colMean
    rw [ha]
    simp
  rw [hpa, hm, sub_self]

/-- With at least two rows, a zero column standard deviation forces
every deviation from the column mean to zero. -/
theorem deviation_zero_of_std_zero (t : ScoreTable) (j : ℕ)
    (h2 : 2 ≤ t.projects.length) (p : ℕ) (hp : p ∈ t.projects)
    (hz : colStd t j = 0) : t.score p j - colMean t j = 0 := by
  have hvar : colVar t j = 0 := by
    have := Real.sqrt_eq_zero (colVar_nonneg t j) |>.mp hz
    exact this
  have hden : (0 : ℝ) < (t.projects.length : ℝ) - 1 := by
    have : (2 : ℝ) ≤ (t.projects.length : ℝ) := by exact_mod_cast h2
    linarith
  have hq : ((t.projects.map fun q => (t.score q j - colMean t j) ^ 2).sum) = 0 := by
    unfold colVar at hvar
    rcases div_eq_zero_iff.mp hvar with h | h
    · exact h
    · exact absurd h (ne_of_gt hden)
  have hle : (t.score p j - colMean t j) ^ 2 ≤ 0 := by
    rw [← hq]
    apply List.single_le_sum
    · intro x hx
      rcases List.mem_map.mp hx with ⟨q, _, rfl⟩
      exact sq_nonneg _
    · exact List.mem_map.mpr ⟨p, hp, rfl⟩
  have : (t.score p j - colMean t j) ^ 2 = 0 :=
    le_antisymm hle (sq_nonneg _)
  exact pow_eq_zero_iff (two_ne_zero) |>.mp this

/-- Each per-judge IEEE term is either exactly the real term of the
exact-real model, or nan with the real term zero.  The nan cases are a
single-row column (nan standard deviation) and a zero-spread column with
negative kappa (zero times infinity); in both the deviation is zero, so
the real term is zero. -/
theorem kappaTermF_cases (t : ScoreTable) (kappa : ℝ) (hk : kappa ≠ -1)
    (p j : ℕ) (hp : p ∈ t.projects) :
    kappaTermF t kappa p j = FloatVal.fin (kappaTerm t kappa p j) ∨
    (kappaTermF t kappa p j = FloatVal.nan ∧ kappaTerm t kappa p j = 0) := by
  have hne : t.projects ≠ [] := List.ne_nil_of_mem hp
  have hmean := colMeanF_eq t j hne
  by_cases hd0 : t.score p j - colMean t j = 0
  · have hterm0 : kappaTerm t kappa p j = 0 := by
      unfold kappaTerm
      rw [hd0, Real.sign_zero, zero_mul]
    have hsign : fsignF (fsub (FloatVal.fin (t.score p j)) (colMeanF t j)) =
        FloatVal.fin 0 := by
      rw [hmean, fsub_fin, fsignF_fin, hd0, Real.sign_zero]
    unfold kappaTermF
    rw [hsign]
    cases hX : fpow (fmul (fabsF (fsub (FloatVal.fin (t.score p j))
        (colMeanF t j))) (fpow (colStdF t j) kappa)) (1 / (1 + kappa)) with
    | fin x =>
      left
      rw [fmul_fin, zero_mul, hterm0]
    | nan => exact Or.inr ⟨rfl, hterm0⟩
    | pinf =>
      right
      refine ⟨?_, hterm0⟩
      simp [fmul]
    | ninf =>
      right
      refine ⟨?_, hterm0⟩
      simp [fmul]
  · have hn0 : t.projects.length ≠ 0 :=
      fun h0 => hne (List.length_eq_zero.mp h0)
    have hn1 : t.projects.length ≠ 1 :=
      fun h1 => hd0 (deviation_zero_of_one t j h1 p hp)
    have h2 : 2 ≤ t.projects.length := by omega
    have hstdF := colStdF_eq t j h2
    have hz : colStd t j ≠ 0 :=
      fun hσ => hd0 (deviation_zero_of_std_zero t j h2 p hp hσ)
    have hσpos : 0 < colStd t j :=
      lt_of_le_of_ne (Real.sqrt_nonneg _) (Ne.symm hz)
    have hbpos : 0 < |t.score p j - colMean t j| * colStd t j ^ kappa :=
      mul_pos (abs_pos.mpr hd0) (Real.rpow_pos_of_pos hσpos kappa)
    left
    unfold kappaTermF
    rw [hmean, hstdF, fsub_fin, fsignF_fin, fabsF_fin,
      fpow_fin_pos hσpos kappa, fmul_fin, fpow_fin_pos hbpos, fmul_fin]
    rfl

/-- The skipna row sum of terms that are each either exactly a real
value or nan-with-real-value-zero is the exact real sum: pandas drops
the nan entries, which is the same as adding zero for each. -/
theorem fsumSkip_fin (g : ℕ → ℝ) (F : ℕ → FloatVal) :
    ∀ l : List ℕ,
      (∀ j ∈ l, F j = FloatVal.fin (g j) ∨
        (F j = FloatVal.nan ∧ g j = 0)) →
      fsumSkip (l.map F) = FloatVal.fin ((l.map g).sum) := by
  intro l
  induction l with
  | nil => intro _; rfl
  | cons j rest ih =>
    intro hall
    have hrest := ih (fun k hk => hall k (List.mem_cons_of_mem j hk))
    rcases hall j (List.mem_cons_self j rest) with hfin | ⟨hnan, hzero⟩
    · rw [List.map_cons, hfin]
      unfold fsumSkip
      rw [List.filter_cons_of_pos (by simp [isNanV]), List.foldr_cons]
      unfold fsumSkip at hrest
      rw [hrest, List.map_cons, List.sum_cons]
      rfl
    · rw [List.map_cons, hnan]
      unfold fsumSkip
      rw [List.filter_cons_of_neg (by simp [isNanV])]
      unfold fsumSkip at hrest
      rw [hrest, List.map_cons, List.sum_cons, hzero, zero_add]

/-- Bridge between the IEEE model and the exact-real model: on the
claimed domain the per-project value of lines 62-65 is the finite real
row sum of the exact-real model.  The nan terms a single-row column or a
zero-spread column with negative kappa produce are dropped by the
skipna row sum, contributing exactly the zero the real model assigns
them. -/
theorem kappaRawF_eq_fin (t : ScoreTable) (kappa : ℝ) (hk : kappa ≠ -1)
    (p : ℕ) (hp : p ∈ t.projects) :
    kappaRawF t kappa p = FloatVal.fin (kappaRaw t kappa p) := by
  unfold kappaRawF kappaRaw
  exact fsumSkip_fin (fun j => kappaTerm t kappa p j)
    (fun j => kappaTermF t kappa p j) t.judges
    (fun j _ => kappaTermF_cases t kappa hk p j hp)

/-- At the one-project, one-judge table with kappa one, the IEEE
pipeline returns the finite value zero, not nan: the lone term is nan
(zero deviation times the nan standard deviation of a single row), but
the skipna row sum of line 62 drops it and an all-nan row sums to
0.0. -/
theorem kappa_adjustedF_single_row :
    kappa_adjustedF ⟨[0], [0], fun _ _ => 5⟩ 1 = [(0, FloatVal.fin 0)] := by
  have hz : kappaRaw ⟨[0], [0], fun _ _ => 5⟩ 1 0 = 0 := by
    unfold kappaRaw
    rw [show (⟨[0], [0], fun _ _ => 5⟩ : ScoreTable).judges = [0] from rfl]
    have hd : (⟨[0], [0], fun _ _ => 5⟩ : ScoreTable).score 0 0 -
        colMean ⟨[0], [0], fun _ _ => 5⟩ 0 = 0 :=
      deviation_zero_of_one ⟨[0], [0], fun _ _ => 5⟩ 0 rfl 0 (by simp)
    simp [kappaTerm, hd]
  have hb : kappaRawF (⟨[0], [0], fun _ _ => 5⟩ : ScoreTable) 1 0 =
      FloatVal.fin 0 := by
    rw [kappaRawF_eq_fin _ 1 (by norm_num) 0 (by simp), hz]
  unfold kappa_adjustedF sort_values_descF
  rw [show (⟨[0], [0], fun _ _ => 5⟩ : ScoreTable).projects = [0] from rfl]
  simp [hb, isNanV, List.insertionSort, List.orderedInsert]

/-- At a two-project table with a constant column and kappa minus one
half, the IEEE pipeline returns finite zeros, not nan: each term is nan
(zero deviation times the infinity from 0.0 to a negative power), but
the skipna row sum drops the nan terms. -/
theorem kappa_adjustedF_constant_column :
    kappa_adjustedF ⟨[0, 1], [0], fun _ _ => 5⟩ (-(1/2)) =
      [(0, FloatVal.fin 0), (1, FloatVal.fin 0)] := by
  have hmean : colMean ⟨[0, 1], [0], fun _ _ => 5⟩ 0 = 5 := by
    unfold colMean
    simp
  have hz : ∀ p : ℕ, kappaRaw ⟨[0, 1], [0], fun _ _ => 5⟩ (-(1/2)) p = 0 := by
    intro p
    unfold kappaRaw
    rw [show (⟨[0, 1], [0], fun _ _ => 5⟩ : ScoreTable).judges = [0] from rfl]
    have hd : (⟨[0, 1], [0], fun _ _ => 5⟩ : ScoreTable).score p 0 -
        colMean ⟨[0, 1], [0], fun _ _ => 5⟩ 0 = 0 := by
      rw [hmean]
      norm_num
    simp [kappaTerm, hd]
  have hb : ∀ p ∈ ([0, 1] : List ℕ),
      kappaRawF (⟨[0, 1], [0], fun _ _ => 5⟩ : ScoreTable) (-(1/2)) p =
        FloatVal.fin 0 := by
    intro p hp
    rw [kappaRawF_eq_fin _ (-(1/2)) (by norm_num) p (by simpa using hp),
      hz p]
  unfold kappa_adjustedF sort_values_descF
  rw [show (⟨[0, 1], [0], fun _ _ => 5⟩ : ScoreTable).projects = [0, 1]
    from rfl]
  rw [List.map_cons, List.map_cons, List.map_nil,
    hb 0 (by simp), hb 1 (by simp)]
  simp [isNanV, List.insertionSort, List.orderedInsert, descByF, fleVal]


/-- C1: for a non-empty score table, any real kappa other than -1, and
normalize off, kappa_adjusted returns for every project p the sum over
judges j of sign(score - mean) times (abs(score - mean) times the sample
standard deviation to the kappa) to the power 1 / (1 + kappa); a term
with zero deviation is exactly zero; and the same finite real value is
the per-project value under IEEE arithmetic, because the row sum of
line 62 is the pandas skipna sum (np.sum calls the sum method of its
non-ndarray argument), which drops the nan terms a single-row standard
deviation or a zero-spread column with negative kappa produce, exactly
the zero-deviation terms whose contribution the claim makes zero. -/
theorem c1_kappa_adjusted_formula (t : ScoreTable) (kappa : ℝ)
    (hk : kappa ≠ -1) (hp : t.projects ≠ []) (hj : t.judges ≠ [])
    (hnd : t.projects.Nodup) (p : ℕ) (hmem : p ∈ t.projects) :
    (kappa_adjusted t kappa false).lookup p =
      some ((t.judges.map fun j =>
        Real.sign (t.score p j - colMean t j) *
          (|t.score p j - colMean t j| * colStd t j ^ kappa) ^
            (1 / (1 + kappa))).sum) ∧
    (∀ j : ℕ, t.score p j - colMean t j = 0 →
      Real.sign (t.score p j - colMean t j) *
        (|t.score p j - colMean t j| * colStd t j ^ kappa) ^
          (1 / (1 + kappa)) = 0) ∧
    kappaRawF t kappa p =
      FloatVal.fin ((t.judges.map fun j =>
        Real.sign (t.score p j - colMean t j) *
          (|t.score p j - colMean t j| * colStd t j ^ kappa) ^
            (1 / (1 + kappa))).sum) := by
  refine ⟨?_, ?_, ?_⟩
  · rw [kappa_adjusted_false,
      lookup_sort_zip_map t (fun q => kappaRaw t kappa q) hnd p hmem]
    rfl
  · intro j hj0
    rw [hj0, Real.sign_zero, zero_mul]
  · rw [kappaRawF_eq_fin t kappa hk p hmem]
    rfl

/-- Witness for C1 at the one-project table with kappa zero. -/
theorem c1_witness :
    ((0:ℝ) ≠ -1 ∧ tOne.projects ≠ [] ∧ tOne.judges ≠ [] ∧
      tOne.projects.Nodup ∧ 0 ∈ tOne.projects) ∧
    ((kappa_adjusted tOne 0 false).lookup 0 =
      some ((tOne.judges.map fun j =>
        Real.sign (tOne.score 0 j - colMean tOne j) *
          (|tOne.score 0 j - colMean tOne j| * colStd tOne j ^ (0:ℝ)) ^
            ((1:ℝ) / (1 + 0))).sum) ∧
    (∀ j : ℕ, tOne.score 0 j - colMean tOne j = 0 →
      Real.sign (tOne.score 0 j - colMean tOne j) *
        (|tOne.score 0 j - colMean tOne j| * colStd tOne j ^ (0:ℝ)) ^
          ((1:ℝ) / (1 + 0)) = 0) ∧
    kappaRawF tOne 0 0 =
      FloatVal.fin ((tOne.judges.map fun j =>
        Real.sign (tOne.score 0 j - colMean tOne j) *
          (|tOne.score 0 j - colMean tOne j| * colStd tOne j ^ (0:ℝ)) ^
            ((1:ℝ) / (1 + 0))).sum)) :=
  ⟨⟨by norm_num, by simp [tOne], by simp [tOne], by simp [tOne],
      by simp [tOne]⟩,
    c1_kappa_adjusted_formula tOne 0 (by norm_num) (by simp [tOne])
      (by simp [tOne]) (by simp [tOne]) 0 (by simp [tOne])⟩

/-- The kappa term at kappa zero is the signed deviation. -/
theorem kappaTerm_zero (t : ScoreTable) (p j : ℕ) :
    kappaTerm t 0 p j = t.score p j - colMean t j := by
  unfold kappaTerm
  rw [Real.rpow_zero, mul_one]
  have he : (1:ℝ) / (1 + 0) = 1 := by norm_num
  rw [he, Real.rpow_one, sign_mul_abs_eq]

/-- C5: with kappa zero and normalize off, kappa_adjusted returns for
every project the unweighted signed-deviation sum, which equals the plain
sum of deviations from the judge means, zero-spread columns included. -/
theorem c5_kappa_zero_signed_deviation (t : ScoreTable)
    (hp : t.projects ≠ []) (hj : t.judges ≠ [])
    (hnd : t.projects.Nodup) (p : ℕ) (hmem : p ∈ t.projects) :
    (kappa_adjusted t 0 false).lookup p =
      some ((t.judges.map fun j =>
        Real.sign (t.score p j - colMean t j) *
          |t.score p j - colMean t j|).sum) ∧
    (kappa_adjusted t 0 false).lookup p =
      some ((t.judges.map fun j => t.score p j - colMean t j).sum) := by
  have hl := lookup_sort_zip_map t (fun q => kappaRaw t 0 q) hnd p hmem
  have hterm : (fun j => kappaTerm t 0 p j) =
      fun j => t.score p j - colMean t j := funext fun j => kappaTerm_zero t p j
  have hterm2 : (fun j => Real.sign (t.score p j - colMean t j) *
      |t.score p j - colMean t j|) =
      fun j => t.score p j - colMean t j :=
    funext fun j => sign_mul_abs_eq _
  have hraw : kappaRaw t 0 p =
      (t.judges.map fun j => t.score p j - colMean t j).sum := by
    unfold kappaRaw
    rw [hterm]
  constructor
  · rw [kappa_adjusted_false, hl, hterm2]
    show some (kappaRaw t 0 p) = _
    rw [hraw]
  · rw [kappa_adjusted_false, hl]
    show some (kappaRaw t 0 p) = _
    rw [hraw]

/-- Witness for C5 at the two-project table. -/
theorem c5_witness :
    (tTwo.projects ≠ [] ∧ tTwo.judges ≠ [] ∧ tTwo.projects.Nodup ∧
      1 ∈ tTwo.projects) ∧
    ((kappa_adjusted tTwo 0 false).lookup 1 =
      some ((tTwo.judges.map fun j =>
        Real.sign (tTwo.score 1 j - colMean tTwo j) *
          |tTwo.score 1 j - colMean tTwo j|).sum) ∧
    (kappa_adjusted tTwo 0 false).lookup 1 =
      some ((tTwo.judges.map fun j => tTwo.score 1 j - colMean tTwo j).sum)) :=
  ⟨⟨by simp [tTwo], by simp [tTwo], by simp [tTwo], by simp [tTwo]⟩,
    c5_kappa_zero_signed_deviation tTwo (by simp [tTwo]) (by simp [tTwo])
      (by simp [tTwo]) 1 (by simp [tTwo])⟩

/-- C2: with normalize off and at least one judge of nonzero variance,
proportional_variance returns for every project the weighted average of
its scores with weights variance over total variance, and those weights
sum to one. -/
theorem c2_proportional_variance_formula (t : ScoreTable)
    (hnd : t.projects.Nodup) (p : ℕ) (hmem : p ∈ t.projects)
    (hv : ∃ j, j ∈ t.judges ∧ colVar t j ≠ 0) :
    (proportional_variance t false).lookup p =
      some ((t.judges.map fun j =>
        (colVar t j / (t.judges.map fun k => colVar t k).sum) *
          t.score p j).sum) ∧
    (t.judges.map fun j =>
      colVar t j / (t.judges.map fun k => colVar t k).sum).sum = 1 := by
  have hS : 0 < (t.judges.map fun k => colVar t k).sum := by
    obtain ⟨j0, hj0, hne⟩ := hv
    have hpos : 0 < colVar t j0 :=
      lt_of_le_of_ne (colVar_nonneg t j0) (Ne.symm hne)
    have hle : colVar t j0 ≤ (t.judges.map fun k => colVar t k).sum := by
      apply List.single_le_sum
      · intro x hx
        rcases List.mem_map.mp hx with ⟨k, _, rfl⟩
        exact colVar_nonneg t k
      · exact List.mem_map.mpr ⟨j0, hj0, rfl⟩
    linarith
  constructor
  · rw [proportional_variance_false,
      lookup_sort_zip_map t (fun q => propRaw t q) hnd p hmem]
    rfl
  · simp only [div_eq_mul_inv]
    rw [List.sum_map_mul_right, ← div_eq_mul_inv]
    exact div_self (ne_of_gt hS)

/-- Witness for C2 at the two-project table. -/
theorem c2_witness :
    (tTwo.projects.Nodup ∧ 0 ∈ tTwo.projects ∧
      (∃ j, j ∈ tTwo.judges ∧ colVar tTwo j ≠ 0)) ∧
    ((proportional_variance tTwo false).lookup 0 =
      some ((tTwo.judges.map fun j =>
        (colVar tTwo j / (tTwo.judges.map fun k => colVar tTwo k).sum) *
          tTwo.score 0 j).sum) ∧
    (tTwo.judges.map fun j =>
      colVar tTwo j / (tTwo.judges.map fun k => colVar tTwo k).sum).sum = 1) := by
  have hvar : colVar tTwo 0 = 2 := by
    have hm : colMean tTwo 0 = 1 := by
      simp [colMean, tTwo]
    unfold colVar
    rw [hm]
    simp [tTwo]
    norm_num
  refine ⟨⟨by simp [tTwo], by simp [tTwo], ⟨0, by simp [tTwo], by rw [hvar]; norm_num⟩⟩, ?_⟩
  exact c2_proportional_variance_formula tTwo (by simp [tTwo]) 0 (by simp [tTwo])
    ⟨0, by simp [tTwo], by rw [hvar]; norm_num⟩

/-- The labels of the sorted series are a permutation of the input
labels. -/
theorem keys_sort_zip (ps : List ℕ) (vs : List ℝ)
    (h : ps.length = vs.length) :
    ((sort_values_desc (ps.zip vs)).map Prod.fst).Perm ps := by
  have h1 := (List.perm_insertionSort descBy (ps.zip vs)).map Prod.fst
  rwa [List.map_fst_zip ps vs h.le] at h1

/-- Either way the normalize flag is set, the kappa pipeline is the
sorted zip of the projects with a value list of matching length. -/
theorem kappa_adjusted_eq_sort (t : ScoreTable) (kappa : ℝ) (nrm : Bool) :
    ∃ vs : List ℝ, t.projects.length = vs.length ∧
      kappa_adjusted t kappa nrm = sort_values_desc (t.projects.zip vs) := by
  cases nrm with
  | false =>
    exact ⟨t.projects.map fun p => kappaRaw t kappa p, by simp,
      kappa_adjusted_false t kappa⟩
  | true =>
    refine ⟨normalizeVals (t.projects.map fun p => kappaRaw t kappa p),
      by simp [normalizeVals], ?_⟩
    simp [kappa_adjusted]

/-- Either way the normalize flag is set, the proportional-variance
pipeline is the sorted zip of the projects with a value list of matching
length. -/
theorem proportional_variance_eq_sort (t : ScoreTable) (nrm : Bool) :
    ∃ vs : List ℝ, t.projects.length = vs.length ∧
      proportional_variance t nrm = sort_values_desc (t.projects.zip vs) := by
  cases nrm with
  | false =>
    exact ⟨t.projects.map fun p => propRaw t p, by simp,
      proportional_variance_false t⟩
  | true =>
    refine ⟨normalizeVals (t.projects.map fun p => propRaw t p),
      by simp [normalizeVals], ?_⟩
    simp [proportional_variance]

/-- C8: on a table with distinct project labels, both adjustment
pipelines return one entry per project label (a permutation of the
labels, each counted once) and the entries are sorted descending by
value (each value is at least the next one). -/
theorem c8_entries_and_descending_sort (t : ScoreTable)
    (hnd : t.projects.Nodup) (kappa : ℝ) (nrm : Bool) :
    (((kappa_adjusted t kappa nrm).map Prod.fst).Perm t.projects ∧
      (∀ p ∈ t.projects,
        ((kappa_adjusted t kappa nrm).map Prod.fst).count p = 1) ∧
      List.Sorted descBy (kappa_adjusted t kappa nrm)) ∧
    (((proportional_variance t nrm).map Prod.fst).Perm t.projects ∧
      (∀ p ∈ t.projects,
        ((proportional_variance t nrm).map Prod.fst).count p = 1) ∧
      List.Sorted descBy (proportional_variance t nrm)) := by
  obtain ⟨vs1, hlen1, heq1⟩ := kappa_adjusted_eq_sort t kappa nrm
  obtain ⟨vs2, hlen2, heq2⟩ := proportional_variance_eq_sort t nrm
  rw [heq1, heq2]
  refine ⟨⟨keys_sort_zip t.projects vs1 hlen1, ?_, ?_⟩,
    keys_sort_zip t.projects vs2 hlen2, ?_, ?_⟩
  · intro p hp
    rw [(keys_sort_zip t.projects vs1 hlen1).count_eq]
    exact List.count_eq_one_of_mem hnd hp
  · exact List.sorted_insertionSort descBy _
  · intro p hp
    rw [(keys_sort_zip t.projects vs2 hlen2).count_eq]
    exact List.count_eq_one_of_mem hnd hp
  · exact List.sorted_insertionSort descBy _

/-- Witness for C8 at the two-project table with normalization on. -/
theorem c8_witness :
    tTwo.projects.Nodup ∧
    ((((kappa_adjusted tTwo 1 true).map Prod.fst).Perm tTwo.projects ∧
      (∀ p ∈ tTwo.projects,
        ((kappa_adjusted tTwo 1 true).map Prod.fst).count p = 1) ∧
      List.Sorted descBy (kappa_adjusted tTwo 1 true)) ∧
    (((proportional_variance tTwo true).map Prod.fst).Perm tTwo.projects ∧
      (∀ p ∈ tTwo.projects,
        ((proportional_variance tTwo true).map Prod.fst).count p = 1) ∧
      List.Sorted descBy (proportional_variance tTwo true))) :=
  ⟨by simp [tTwo],
    c8_entries_and_descending_sort tTwo (by simp [tTwo]) 1 true⟩

/-- Two distinct members force a strictly positive range. -/
theorem min_lt_max_of_two {v : List ℝ} {x y : ℝ} (hx : x ∈ v) (hy : y ∈ v)
    (hxy : x ≠ y) : listMin v < listMax v := by
  rcases lt_or_le (listMin v) (listMax v) with h | h
  · exact h
  · exact absurd
      (le_antisymm (le_trans (le_listMax hx) (le_trans h (listMin_le hy)))
        (le_trans (le_listMax hy) (le_trans h (listMin_le hx))))
      hxy

/-- Any permutation of the rescaled values of a list with positive range
has minimum zero and maximum one. -/
theorem minmax_of_perm_normalize {v w : List ℝ}
    (h : listMin v < listMax v) (hp : w.Perm (normalizeVals v)) :
    listMin w = 0 ∧ listMax w = 1 := by
  have hne : v ≠ [] := by
    intro he
    rw [he] at h
    simp [listMin, listMax] at h
  have hba : listMax v - listMin v ≠ 0 := sub_ne_zero.mpr (ne_of_gt h)
  have h0 : (0:ℝ) ∈ normalizeVals v :=
    List.mem_map.mpr ⟨listMin v, listMin_mem hne, by rw [sub_self, zero_div]⟩
  have h1 : (1:ℝ) ∈ normalizeVals v :=
    List.mem_map.mpr ⟨listMax v, listMax_mem hne, div_self hba⟩
  have hb : ∀ x ∈ normalizeVals v, 0 ≤ x ∧ x ≤ 1 := by
    intro x hx
    rcases List.mem_map.mp hx with ⟨y, hy, rfl⟩
    constructor
    · exact div_nonneg (sub_nonneg.mpr (listMin_le hy))
        (le_of_lt (sub_pos.mpr h))
    · rw [div_le_one (sub_pos.mpr h)]
      exact sub_le_sub_right (le_listMax hy) _
  constructor
  · exact listMin_eq_of (hp.mem_iff.mpr h0)
      (fun x hx => (hb x (hp.mem_iff.mp hx)).1)
  · exact listMax_eq_of (hp.mem_iff.mpr h1)
      (fun x hx => (hb x (hp.mem_iff.mp hx)).2)

/-- C6: the rescaling helper maps a sequence with a strictly positive
range elementwise to (x - min) / (max - min), keeping the length, with
resulting minimum zero and maximum one; consequently both pipelines with
normalization on return values of minimum zero and maximum one whenever
the raw per-project scores contain two distinct values. -/
theorem c6_normalize_bounds (v : List ℝ) (x y : ℝ) (hx : x ∈ v)
    (hy : y ∈ v) (hxy : x ≠ y) (t : ScoreTable) (kappa : ℝ)
    (p1 p2 q1 q2 : ℕ) (hp1 : p1 ∈ t.projects) (hp2 : p2 ∈ t.projects)
    (hq1 : q1 ∈ t.projects) (hq2 : q2 ∈ t.projects)
    (hkd : kappaRaw t kappa p1 ≠ kappaRaw t kappa p2)
    (hpd : propRaw t q1 ≠ propRaw t q2) :
    (normalizeVals v =
      v.map fun z => (z - listMin v) / (listMax v - listMin v)) ∧
    (normalizeVals v).length = v.length ∧
    listMin (normalizeVals v) = 0 ∧ listMax (normalizeVals v) = 1 ∧
    listMin ((kappa_adjusted t kappa true).map Prod.snd) = 0 ∧
    listMax ((kappa_adjusted t kappa true).map Prod.snd) = 1 ∧
    listMin ((proportional_variance t true).map Prod.snd) = 0 ∧
    listMax ((proportional_variance t true).map Prod.snd) = 1 := by
  have hv := min_lt_max_of_two hx hy hxy
  have hself := minmax_of_perm_normalize hv
    (List.Perm.refl (normalizeVals v))
  have hkv : listMin (t.projects.map fun p => kappaRaw t kappa p) <
      listMax (t.projects.map fun p => kappaRaw t kappa p) :=
    min_lt_max_of_two (List.mem_map.mpr ⟨p1, hp1, rfl⟩)
      (List.mem_map.mpr ⟨p2, hp2, rfl⟩) hkd
  have hpv : listMin (t.projects.map fun p => propRaw t p) <
      listMax (t.projects.map fun p => propRaw t p) :=
    min_lt_max_of_two (List.mem_map.mpr ⟨q1, hq1, rfl⟩)
      (List.mem_map.mpr ⟨q2, hq2, rfl⟩) hpd
  have hkeq : kappa_adjusted t kappa true =
      sort_values_desc (t.projects.zip
        (normalizeVals (t.projects.map fun p => kappaRaw t kappa p))) := by
    simp [kappa_adjusted]
  have hpeq : proportional_variance t true =
      sort_values_desc (t.projects.zip
        (normalizeVals (t.projects.map fun p => propRaw t p))) := by
    simp [proportional_variance]
  have hkperm := snds_sort_zip t.projects
    (normalizeVals (t.projects.map fun p => kappaRaw t kappa p))
    (by simp [normalizeVals])
  have hpperm := snds_sort_zip t.projects
    (normalizeVals (t.projects.map fun p => propRaw t p))
    (by simp [normalizeVals])
  have hk := minmax_of_perm_normalize hkv hkperm
  have hp := minmax_of_perm_normalize hpv hpperm
  rw [hkeq, hpeq]
  exact ⟨rfl, by simp [normalizeVals], hself.1, hself.2,
    hk.1, hk.2, hp.1, hp.2⟩

/-- Judge mean of the witness table. -/
theorem tTwo_mean : colMean tTwo 0 = 1 := by
  simp [colMean, tTwo]

/-- Judge variance of the witness table. -/
theorem tTwo_var : colVar tTwo 0 = 2 := by
  unfold colVar
  rw [tTwo_mean]
  simp [tTwo]
  norm_num

/-- Raw kappa score of the witness table at kappa zero. -/
theorem tTwo_kappaRaw (p : ℕ) : kappaRaw tTwo 0 p = tTwo.score p 0 - 1 := by
  unfold kappaRaw
  simp only [kappaTerm_zero]
  rw [show tTwo.judges = [0] from rfl]
  simp [tTwo_mean]

/-- Raw proportional-variance score of the witness table. -/
theorem tTwo_propRaw (p : ℕ) : propRaw tTwo p = tTwo.score p 0 := by
  have hw : weight tTwo 0 = 1 := by
    unfold weight
    rw [show tTwo.judges = [0] from rfl]
    simp [tTwo_var]
  unfold propRaw
  rw [show tTwo.judges = [0] from rfl]
  simp [hw]

/-- Witness for C6 at a concrete vector and the two-project table. -/
theorem c6_witness :
    ((0:ℝ) ∈ [(0:ℝ), 1] ∧ (1:ℝ) ∈ [(0:ℝ), 1] ∧ (0:ℝ) ≠ 1 ∧
      0 ∈ tTwo.projects ∧ 1 ∈ tTwo.projects ∧
      kappaRaw tTwo 0 0 ≠ kappaRaw tTwo 0 1 ∧
      propRaw tTwo 0 ≠ propRaw tTwo 1) ∧
    ((normalizeVals [(0:ℝ), 1] =
      [(0:ℝ), 1].map fun z => (z - listMin [(0:ℝ), 1]) /
        (listMax [(0:ℝ), 1] - listMin [(0:ℝ), 1])) ∧
    (normalizeVals [(0:ℝ), 1]).length = [(0:ℝ), 1].length ∧
    listMin (normalizeVals [(0:ℝ), 1]) = 0 ∧
    listMax (normalizeVals [(0:ℝ), 1]) = 1 ∧
    listMin ((kappa_adjusted tTwo 0 true).map Prod.snd) = 0 ∧
    listMax ((kappa_adjusted tTwo 0 true).map Prod.snd) = 1 ∧
    listMin ((proportional_variance tTwo true).map Prod.snd) = 0 ∧
    listMax ((proportional_variance tTwo true).map Prod.snd) = 1) := by
  have hkd : kappaRaw tTwo 0 0 ≠ kappaRaw tTwo 0 1 := by
    rw [tTwo_kappaRaw, tTwo_kappaRaw]
    simp [tTwo]
    norm_num
  have hpd : propRaw tTwo 0 ≠ propRaw tTwo 1 := by
    rw [tTwo_propRaw, tTwo_propRaw]
    simp [tTwo]
  refine ⟨⟨by simp, by simp, by norm_num, by simp [tTwo], by simp [tTwo],
    hkd, hpd⟩, ?_⟩
  exact c6_normalize_bounds [(0:ℝ), 1] 0 1 (by simp) (by simp)
    (by norm_num) tTwo 0 0 1 0 1 (by simp [tTwo]) (by simp [tTwo])
    (by simp [tTwo]) (by simp [tTwo]) hkd hpd

/-- When every score label is present in the attendance series, the blend
succeeds and produces the per-entry weighted average. -/
theorem blendEach_ok (att : List (ℕ × ℝ)) (r : ℝ) :
    ∀ scores : List (ℕ × ℝ),
      (∀ p ∈ scores.map Prod.fst, (att.lookup p).isSome) →
      blendEach att r scores = Except.ok (scores.map fun q =>
        (q.1, q.2 * (1 - r) + ((att.lookup q.1).getD 0) * r)) := by
  intro scores
  induction scores with
  | nil => intro _; rfl
  | cons q rest ih =>
    intro hc
    obtain ⟨p, s⟩ := q
    have hp : (att.lookup p).isSome := hc p (by simp)
    obtain ⟨a, ha⟩ := Option.isSome_iff_exists.mp hp
    have hrest := ih (fun x hx => hc x (by simp [hx]))
    simp only [blendEach, ha, hrest]
    simp [ha]

/-- When some score label is absent from the attendance series, the blend
reports an error carrying such a label. -/
theorem blendEach_error (att : List (ℕ × ℝ)) (r : ℝ) :
    ∀ (scores : List (ℕ × ℝ)) (p : ℕ), p ∈ scores.map Prod.fst →
      att.lookup p = none →
      ∃ k, blendEach att r scores = Except.error k ∧
        k ∈ scores.map Prod.fst ∧ att.lookup k = none := by
  intro scores
  induction scores with
  | nil => intro p hp _; simp at hp
  | cons q rest ih =>
    intro p hp hm
    obtain ⟨q1, q2⟩ := q
    by_cases hq : att.lookup q1 = none
    · exact ⟨q1, by simp only [blendEach, hq], by simp, hq⟩
    · obtain ⟨a, ha⟩ := Option.ne_none_iff_exists'.mp hq
      have hp2 : p ∈ rest.map Prod.fst := by
        rcases (by simpa using hp : p = q1 ∨ p ∈ rest.map Prod.fst) with h1 | h1
        · subst h1
          exact absurd hm hq
        · exact h1
      obtain ⟨k, hk1, hk2, hk3⟩ := ih p hp2 hm
      refine ⟨k, ?_, by simp [hk2], hk3⟩
      simp only [blendEach, ha, hk1]

/-- C3 counterexample: with a mapping in the direction the claim states,
score identifier to attendance identifier, the code raises a KeyError
instead of returning the blended series, because line 121 applies the
mapping to the attendance identifiers, not to the score identifiers. -/
theorem c3_counterexample :
    showcase_prescreening_score [((0:ℕ), (1:ℝ))] [((5:ℕ), (1:ℝ))] 0
      (some [((0:ℕ), (5:ℕ))]) = Except.error 5 ∧
    showcase_prescreening_score [((0:ℕ), (1:ℝ))] [((5:ℕ), (1:ℝ))] 0
      (some [((0:ℕ), (5:ℕ))]) ≠ Except.ok [((0:ℕ), (1:ℝ))] := by
  constructor
  · rfl
  · intro h
    rw [show showcase_prescreening_score [((0:ℕ), (1:ℝ))] [((5:ℕ), (1:ℝ))]
        0 (some [((0:ℕ), (5:ℕ))]) = Except.error 5 from rfl] at h
    exact Except.noConfusion h

/-- C3 as amended: the blend returns scores[p] * (1 - r) plus r times the
attendance value aligned at p through the relabelled attendance series,
where the relabelling applies the supplied mapping to the attendance
identifiers (an attendance-identifier to score-identifier mapping), and
no relabelling happens without a mapping. -/
theorem c3_blend_formula (scores att att2 : List (ℕ × ℝ)) (r : ℝ)
    (mp : Option (List (ℕ × ℕ)))
    (htr : translated mp att = Except.ok att2)
    (hc : ∀ p ∈ scores.map Prod.fst, (att2.lookup p).isSome) :
    showcase_prescreening_score scores att r mp =
      Except.ok (scores.map fun q =>
        (q.1, q.2 * (1 - r) + ((att2.lookup q.1).getD 0) * r)) ∧
    (mp = none → att2 = att) := by
  constructor
  · simp only [showcase_prescreening_score, htr]
    exact blendEach_ok att2 r scores hc
  · intro h
    subst h
    have h2 := htr
    simp only [translated] at h2
    exact (Except.ok.inj h2).symm

/-- Witness for the amended C3 at a concrete mapping from attendance
identifier 5 to score identifier 0. -/
theorem c3_witness :
    (translated (some [((5:ℕ), (0:ℕ))]) [((5:ℕ), (2:ℝ))] =
      Except.ok [((0:ℕ), (2:ℝ))] ∧
      (∀ p ∈ ([((0:ℕ), (1:ℝ))].map Prod.fst),
        (([((0:ℕ), (2:ℝ))].lookup p).isSome)) ∧
    (showcase_prescreening_score [((0:ℕ), (1:ℝ))] [((5:ℕ), (2:ℝ))] 0
        (some [((5:ℕ), (0:ℕ))]) =
      Except.ok ([((0:ℕ), (1:ℝ))].map fun q =>
        (q.1, q.2 * (1 - 0) + (([((0:ℕ), (2:ℝ))].lookup q.1).getD 0) * 0)) ∧
      (some [((5:ℕ), (0:ℕ))] = none →
        [((0:ℕ), (2:ℝ))] = [((5:ℕ), (2:ℝ))]))) := by
  refine ⟨rfl, ?_, ?_⟩
  · intro p hp
    simp at hp
    subst hp
    rfl
  · exact c3_blend_formula [((0:ℕ), (1:ℝ))] [((5:ℕ), (2:ℝ))]
      [((0:ℕ), (2:ℝ))] 0 (some [((5:ℕ), (0:ℕ))]) rfl
      (by intro p hp; simp at hp; subst hp; rfl)

/-- C7: when every score label resolves in the post-translation
attendance series, a ratio of zero returns the scores unchanged and a
ratio of one returns exactly the post-translation attendance values at
the score labels, whatever the score values are. -/
theorem c7_blend_extreme_ratios (scores att att2 : List (ℕ × ℝ))
    (mp : Option (List (ℕ × ℕ)))
    (htr : translated mp att = Except.ok att2)
    (hc : ∀ p ∈ scores.map Prod.fst, (att2.lookup p).isSome) :
    showcase_prescreening_score scores att 0 mp = Except.ok scores ∧
    showcase_prescreening_score scores att 1 mp =
      Except.ok (scores.map fun q => (q.1, (att2.lookup q.1).getD 0)) := by
  constructor
  · simp only [showcase_prescreening_score, htr]
    rw [blendEach_ok att2 0 scores hc]
    simp
  · simp only [showcase_prescreening_score, htr]
    rw [blendEach_ok att2 1 scores hc]
    simp

/-- Witness for C7 on a one-entry series without a mapping. -/
theorem c7_witness :
    (translated none [((0:ℕ), (2:ℝ))] = Except.ok [((0:ℕ), (2:ℝ))] ∧
      (∀ p ∈ ([((0:ℕ), (1:ℝ))].map Prod.fst),
        (([((0:ℕ), (2:ℝ))].lookup p).isSome))) ∧
    (showcase_prescreening_score [((0:ℕ), (1:ℝ))] [((0:ℕ), (2:ℝ))] 0 none =
      Except.ok [((0:ℕ), (1:ℝ))] ∧
    showcase_prescreening_score [((0:ℕ), (1:ℝ))] [((0:ℕ), (2:ℝ))] 1 none =
      Except.ok ([((0:ℕ), (1:ℝ))].map fun q =>
        (q.1, (([((0:ℕ), (2:ℝ))].lookup q.1).getD 0)))) := by
  refine ⟨⟨rfl, ?_⟩, ?_⟩
  · intro p hp
    simp at hp
    subst hp
    rfl
  · exact c7_blend_extreme_ratios [((0:ℕ), (1:ℝ))] [((0:ℕ), (2:ℝ))]
      [((0:ℕ), (2:ℝ))] none rfl (by intro p hp; simp at hp; subst hp; rfl)

/-- C4: when some score label is absent from the post-translation
attendance series, the blend reports a KeyError carrying such an absent
label, and never returns any result series for that input. -/
theorem c4_missing_key_error (scores att att2 : List (ℕ × ℝ)) (r : ℝ)
    (mp : Option (List (ℕ × ℕ)))
    (htr : translated mp att = Except.ok att2) (p : ℕ)
    (hp : p ∈ scores.map Prod.fst) (hmiss : att2.lookup p = none) :
    (∃ k, showcase_prescreening_score scores att r mp = Except.error k ∧
      k ∈ scores.map Prod.fst ∧ att2.lookup k = none) ∧
    ∀ out : List (ℕ × ℝ),
      showcase_prescreening_score scores att r mp ≠ Except.ok out := by
  have hshow : showcase_prescreening_score scores att r mp =
      blendEach att2 r scores := by
    simp only [showcase_prescreening_score, htr]
  obtain ⟨k, hk1, hk2, hk3⟩ := blendEach_error att2 r scores p hp hmiss
  refine ⟨⟨k, by rw [hshow]; exact hk1, hk2, hk3⟩, ?_⟩
  intro out hout
  rw [hshow, hk1] at hout
  exact Except.noConfusion hout

/-- Witness for C4: score label 0 is absent from the attendance series. -/
theorem c4_witness :
    (translated none [((1:ℕ), (2:ℝ))] = Except.ok [((1:ℕ), (2:ℝ))] ∧
      0 ∈ ([((0:ℕ), (1:ℝ))].map Prod.fst) ∧
      ([((1:ℕ), (2:ℝ))].lookup 0 = none)) ∧
    ((∃ k, showcase_prescreening_score [((0:ℕ), (1:ℝ))] [((1:ℕ), (2:ℝ))]
        (1/2) none = Except.error k ∧
      k ∈ ([((0:ℕ), (1:ℝ))].map Prod.fst) ∧
      ([((1:ℕ), (2:ℝ))].lookup k = none)) ∧
    ∀ out : List (ℕ × ℝ),
      showcase_prescreening_score [((0:ℕ), (1:ℝ))] [((1:ℕ), (2:ℝ))]
        (1/2) none ≠ Except.ok out) :=
  ⟨⟨rfl, by simp, rfl⟩,
    c4_missing_key_error [((0:ℕ), (1:ℝ))] [((1:ℕ), (2:ℝ))]
      [((1:ℕ), (2:ℝ))] (1/2) none rfl 0 (by simp) rfl⟩

/-- C9 counterexample: on a table with one project and zero judges both
pipelines return a result series (a single zero entry) rather than
failing, and on a table with zero projects they return an empty series
rather than failing; no error of any kind is raised. -/
theorem c9_counterexample :
    kappa_adjusted ⟨[7], [], fun _ _ => 0⟩ 1 false = [(7, 0)] ∧
    proportional_variance ⟨[7], [], fun _ _ => 0⟩ false = [(7, 0)] ∧
    kappa_adjusted ⟨[], [0], fun _ _ => 0⟩ 1 false = [] ∧
    proportional_variance ⟨[], [0], fun _ _ => 0⟩ false = [] := by
  refine ⟨?_, ?_, ?_, ?_⟩ <;> rfl

/-- C9 as amended: the pipelines never fail on degenerate shapes; a
zero-judge table yields the raw score zero for every project, and a
zero-project table yields the empty series for either pipeline and
either normalize flag. -/
theorem c9_degenerate_shapes (t : ScoreTable) (kappa : ℝ)
    (hj : t.judges = []) (hnd : t.projects.Nodup) (p : ℕ)
    (hp : p ∈ t.projects) (t2 : ScoreTable) (kappa2 : ℝ) (nrm : Bool)
    (hp2 : t2.projects = []) :
    (kappa_adjusted t kappa false).lookup p = some 0 ∧
    (proportional_variance t false).lookup p = some 0 ∧
    kappa_adjusted t2 kappa2 nrm = [] ∧
    proportional_variance t2 nrm = [] := by
  have hkraw : kappaRaw t kappa p = 0 := by
    unfold kappaRaw
    rw [hj]
    rfl
  have hpraw : propRaw t p = 0 := by
    unfold propRaw
    rw [hj]
    rfl
  refine ⟨?_, ?_, ?_, ?_⟩
  · rw [kappa_adjusted_false,
      lookup_sort_zip_map t (fun q => kappaRaw t kappa q) hnd p hp]
    show some (kappaRaw t kappa p) = some 0
    rw [hkraw]
  · rw [proportional_variance_false,
      lookup_sort_zip_map t (fun q => propRaw t q) hnd p hp]
    show some (propRaw t p) = some 0
    rw [hpraw]
  · obtain ⟨vs, hlen, heq⟩ := kappa_adjusted_eq_sort t2 kappa2 nrm
    rw [heq, hp2]
    simp [sort_values_desc]
  · obtain ⟨vs, hlen, heq⟩ := proportional_variance_eq_sort t2 nrm
    rw [heq, hp2]
    simp [sort_values_desc]

/-- Witness for the amended C9 at concrete degenerate tables. -/
theorem c9_witness :
    ((⟨[7], [], fun _ _ => 0⟩ : ScoreTable).judges = [] ∧
      (⟨[7], [], fun _ _ => 0⟩ : ScoreTable).projects.Nodup ∧
      7 ∈ (⟨[7], [], fun _ _ => 0⟩ : ScoreTable).projects ∧
      (⟨[], [0], fun _ _ => 0⟩ : ScoreTable).projects = []) ∧
    ((kappa_adjusted ⟨[7], [], fun _ _ => 0⟩ 1 false).lookup 7 = some 0 ∧
    (proportional_variance ⟨[7], [], fun _ _ => 0⟩ false).lookup 7 =
      some 0 ∧
    kappa_adjusted ⟨[], [0], fun _ _ => 0⟩ 1 true = [] ∧
    proportional_variance ⟨[], [0], fun _ _ => 0⟩ true = []) :=
  ⟨⟨rfl, by simp, by simp, rfl⟩,
    c9_degenerate_shapes ⟨[7], [], fun _ _ => 0⟩ 1 rfl (by simp) 7
      (by simp) ⟨[], [0], fun _ _ => 0⟩ 1 true rfl⟩

/-- A nonempty constant list rescales to an all-nan list under IEEE
division: every numerator and the denominator are zero. -/
theorem normalizeF_const {v : List ℝ} {c : ℝ} (hne : v ≠ [])
    (hc : ∀ x ∈ v, x = c) :
    normalizeF v = List.replicate v.length FloatVal.nan := by
  have hcm : c ∈ v := by
    cases v with
    | nil => exact absurd rfl hne
    | cons y ys =>
      exact (hc y (List.mem_cons_self y ys)) ▸ List.mem_cons_self y ys
  have hmin : listMin v = c :=
    listMin_eq_of hcm (fun x hx => le_of_eq (hc x hx).symm)
  have hmax : listMax v = c :=
    listMax_eq_of hcm (fun x hx => le_of_eq (hc x hx))
  unfold normalizeF
  rw [hmin, hmax]
  have hmem : ∀ b ∈ v.map (fun x => fdiv (x - c) (c - c)),
      b = FloatVal.nan := by
    intro b hb
    rcases List.mem_map.mp hb with ⟨x, hx, rfl⟩
    rw [hc x hx, sub_self]
    simp [fdiv]
  have h2 := List.eq_replicate_of_mem hmem
  rwa [List.length_map] at h2

/-- Flat two-project table whose raw scores are constant, used by the C10
witness. -/
def tFlat : ScoreTable := ⟨[0, 1], [0], fun _ _ => 5⟩

/-- C10: under IEEE division, rescaling any nonempty constant vector
raises no error and returns a same-length all-nan vector, each entry
being zero divided by zero; in particular the normalize step of either
pipeline turns constant raw per-project scores into an all-nan series
rather than zeros or an exception. -/
theorem c10_constant_normalize_nan (t : ScoreTable) (kappa : ℝ)
    (c1 c2 : ℝ) (hne : t.projects ≠ [])
    (hk : ∀ p ∈ t.projects, kappaRaw t kappa p = c1)
    (hpr : ∀ p ∈ t.projects, propRaw t p = c2) :
    normalizeF (t.projects.map fun p => kappaRaw t kappa p) =
      List.replicate t.projects.length FloatVal.nan ∧
    normalizeF (t.projects.map fun p => propRaw t p) =
      List.replicate t.projects.length FloatVal.nan ∧
    ∀ (v : List ℝ) (c : ℝ), v ≠ [] → (∀ x ∈ v, x = c) →
      normalizeF v = List.replicate v.length FloatVal.nan := by
  have hmapne : (t.projects.map fun p => kappaRaw t kappa p) ≠ [] := by
    intro h
    exact hne (List.map_eq_nil_iff.mp h)
  have hmapne2 : (t.projects.map fun p => propRaw t p) ≠ [] := by
    intro h
    exact hne (List.map_eq_nil_iff.mp h)
  refine ⟨?_, ?_, fun v c hv hc => normalizeF_const hv hc⟩
  · have := normalizeF_const hmapne (c := c1) (by
      intro x hx
      rcases List.mem_map.mp hx with ⟨p, hp, rfl⟩
      exact hk p hp)
    rwa [List.length_map] at this
  · have := normalizeF_const hmapne2 (c := c2) (by
      intro x hx
      rcases List.mem_map.mp hx with ⟨p, hp, rfl⟩
      exact hpr p hp)
    rwa [List.length_map] at this

/-- Mean of the flat witness table. -/
theorem tFlat_mean : colMean tFlat 0 = 5 := by
  simp [colMean, tFlat]

/-- Variance of the flat witness table. -/
theorem tFlat_var : colVar tFlat 0 = 0 := by
  unfold colVar
  rw [tFlat_mean]
  simp [tFlat]

/-- Raw kappa scores of the flat witness table vanish. -/
theorem tFlat_kappaRaw (p : ℕ) (kappa : ℝ) : kappaRaw tFlat kappa p = 0 := by
  unfold kappaRaw
  rw [show tFlat.judges = [0] from rfl]
  have ht : kappaTerm tFlat kappa p 0 = 0 := by
    unfold kappaTerm
    rw [tFlat_mean, show tFlat.score p 0 = 5 from rfl, sub_self,
      Real.sign_zero, zero_mul]
  simp [ht]

/-- Raw proportional-variance scores of the flat witness table vanish. -/
theorem tFlat_propRaw (p : ℕ) : propRaw tFlat p = 0 := by
  have hw : weight tFlat 0 = 0 := by
    unfold weight
    rw [show tFlat.judges = [0] from rfl]
    simp [tFlat_var]
  unfold propRaw
  rw [show tFlat.judges = [0] from rfl]
  simp [hw]

/-- Witness for C10 at the flat table. -/
theorem c10_witness :
    (tFlat.projects ≠ [] ∧
      (∀ p ∈ tFlat.projects, kappaRaw tFlat 1 p = 0) ∧
      (∀ p ∈ tFlat.projects, propRaw tFlat p = 0)) ∧
    (normalizeF (tFlat.projects.map fun p => kappaRaw tFlat 1 p) =
      List.replicate tFlat.projects.length FloatVal.nan ∧
    normalizeF (tFlat.projects.map fun p => propRaw tFlat p) =
      List.replicate tFlat.projects.length FloatVal.nan ∧
    ∀ (v : List ℝ) (c : ℝ), v ≠ [] → (∀ x ∈ v, x = c) →
      normalizeF v = List.replicate v.length FloatVal.nan) :=
  ⟨⟨by simp [tFlat], fun p _ => tFlat_kappaRaw p 1,
      fun p _ => tFlat_propRaw p⟩,
    c10_constant_normalize_nan tFlat 1 0 0 (by simp [tFlat])
      (fun p _ => tFlat_kappaRaw p 1) (fun p _ => tFlat_propRaw p)⟩
